import Mathlib

/-!
Verification of the `pallas-multiplexer` crate (`src/pallas-multiplexer/src/lib.rs`).

The crate is a bidirectional protocol multiplexer: many mini-protocols share a
single bearer.  The egress worker (`tx_loop`/`tx_step`) drains per-protocol
outbound mpsc queues, chunks each payload to at most
`MAX_SEGMENT_PAYLOAD_LENGTH` bytes and writes one segment per chunk; the
ingress worker (`rx_loop`) reads segments and routes each payload to the
inbound queue of the matching protocol id.  The façade (`Multiplexer`) builds
the registry of duplex channels (`setup`), hands them out (`use_channel`) and
joins the workers.

Shallow embedding conventions:
* bytes, protocol ids (`u16`) and clock samples (`Instant`) are modelled as
  `Nat`; a payload (`Vec<u8>`) is a `List Nat`;
* an mpsc queue is modelled by its buffered contents plus a flag recording
  whether the far end was dropped (`disconnected` for a `Receiver` whose
  `Sender` is gone, `consumerDropped` for a `Sender` whose `Receiver` is gone);
  `try_recv` returns `Disconnected` only once the buffer is drained, as Rust's
  mpsc does;
* the bearer's `write_segment` is modelled as an infallible append to a trace
  of written segments (on a write error the Rust code logs and panics, so no
  post-error behaviour needs modelling); `read_segment` is modelled by feeding
  the loop an explicit list of incoming segments;
* `HashMap`s are modelled as association lists; Rust's `HashMap` iteration
  order is unspecified, so the list order stands for an arbitrary such order.
-/

/-- `pub type Payload = Vec<u8>;` — bytes as `Nat`. -/
abbrev Payload := List Nat

/-- `const MAX_SEGMENT_PAYLOAD_LENGTH: usize = 65535;` -/
def MAX_SEGMENT_PAYLOAD_LENGTH : Nat := 65535

/-- A wire segment: `write_segment(clock, protocol_id, chunk)` /
`read_segment() -> (u16, u32, Payload)`. -/
structure Segment where
  protocolId : Nat
  clock : Nat
  chunk : Payload
deriving DecidableEq, Repr

/-- Rust `slice::chunks(n)`: splits a slice into consecutive pieces of length
`n`, the last piece possibly shorter; an empty slice yields no chunks.
(`chunks` panics when `n = 0`; the crate only calls it at
`MAX_SEGMENT_PAYLOAD_LENGTH`, so that branch returns `[]` here.) -/
def chunksOf (n : Nat) : List α → List (List α)
  | [] => []
  | x :: xs =>
    if _h : n = 0 then []
    else (x :: xs).take n :: chunksOf n ((x :: xs).drop n)
termination_by l => l.length
decreasing_by
  simp only [List.length_drop, List.length_cons]
  omega

theorem chunksOf_nil (n : Nat) : chunksOf n ([] : List α) = [] := by
  simp [chunksOf]

theorem chunksOf_cons (n : Nat) (x : α) (xs : List α) (h : n ≠ 0) :
    chunksOf n (x :: xs) = (x :: xs).take n :: chunksOf n ((x :: xs).drop n) := by
  rw [chunksOf]
  simp [h]

/-- Every chunk produced by `chunksOf n` has length at most `n`. -/
theorem chunksOf_length_le (n : Nat) (l : List α) :
    ∀ c ∈ chunksOf n l, c.length ≤ n := by
  induction l using chunksOf.induct n with
  | case1 => intro c hc; simp [chunksOf_nil] at hc
  | case2 x xs h => intro c hc; simp [chunksOf, h] at hc
  | case3 x xs h ih =>
    intro c hc
    rw [chunksOf_cons n x xs h] at hc
    rcases List.mem_cons.mp hc with hc | hc
    · subst hc
      simp
    · exact ih c hc

/-- Concatenating the chunks in emitted order reconstructs the input. -/
theorem chunksOf_flatten (n : Nat) (hn : n ≠ 0) (l : List α) :
    (chunksOf n l).flatten = l := by
  induction l using chunksOf.induct n with
  | case1 => simp [chunksOf_nil]
  | case2 x xs h => exact absurd h hn
  | case3 x xs h ih =>
    rw [chunksOf_cons n x xs h]
    simp only [List.flatten_cons, ih]
    exact List.take_append_drop n (x :: xs)

/-- A non-empty input yields at least one chunk. -/
theorem chunksOf_ne_nil (n : Nat) (hn : n ≠ 0) (l : List α) (hl : l ≠ []) :
    chunksOf n l ≠ [] := by
  match l with
  | [] => exact absurd rfl hl
  | x :: xs => rw [chunksOf_cons n x xs hn]; simp

/-- State of an outbound queue's consumer end (`Receiver<Payload>` held by the
egress loop): pending payloads plus whether the `Sender` was dropped. -/
structure IngressRx where
  buf : List Payload
  disconnected : Bool
deriving DecidableEq, Repr

/-- Result of `Receiver::try_recv` (`Ok` carries the remaining queue state). -/
inductive TryRecvResult
  | ok (payload : Payload) (rest : IngressRx)
  | disconnected
  | empty
deriving DecidableEq, Repr

/-- Rust mpsc `try_recv`: a buffered payload is returned even after the sender
is gone; `Disconnected` only fires on a drained queue with no sender. -/
def tryRecv (rx : IngressRx) : TryRecvResult :=
  match rx.buf with
  | p :: rest => .ok p { rx with buf := rest }
  | [] => if rx.disconnected then .disconnected else .empty

/-- Result of `tx_step`: `ok` carries the new queue state and the segments
written to the bearer (the source's `TxStepError::BearerError` case is the
bearer itself failing, which the model's infallible write trace excludes). -/
inductive TxStepResult
  | ok (rest : IngressRx) (written : List Segment)
  | ingressDisconnected
  | ingressEmpty
deriving DecidableEq, Repr

/-- `tx_step`: non-blocking pop of one payload; on success split it into
chunks of at most `MAX_SEGMENT_PAYLOAD_LENGTH` and write one segment per
chunk, all carrying the sampled `clock` and the protocol id. -/
def tx_step (ingress_id : Nat) (rx : IngressRx) (clock : Nat) : TxStepResult :=
  match tryRecv rx with
  | .ok payload rest =>
      .ok rest ((chunksOf MAX_SEGMENT_PAYLOAD_LENGTH payload).map
        (fun c => { protocolId := ingress_id, clock := clock, chunk := c }))
  | .disconnected => .ingressDisconnected
  | .empty => .ingressEmpty

/-- Keys of an association list (model of `HashMap` key set). -/
def keys (m : List (Nat × α)) : List Nat :=
  m.map Prod.fst

theorem keys_nil : keys ([] : List (Nat × α)) = [] := rfl

theorem keys_cons (e : Nat × α) (m : List (Nat × α)) :
    keys (e :: m) = e.1 :: keys m := rfl

theorem keys_append (m m' : List (Nat × α)) :
    keys (m ++ m') = keys m ++ keys m' := by
  simp [keys]

/-- `HashMap::get` on the association-list model. -/
def lookupId (m : List (Nat × α)) (k : Nat) : Option α :=
  match m with
  | [] => none
  | e :: rest => if e.1 = k then some e.2 else lookupId rest k

/-- `HashMap::remove` on the association-list model (with no-duplicate keys
this removes exactly the one entry). -/
def eraseId : List (Nat × α) → Nat → List (Nat × α)
  | [], _ => []
  | e :: rest, k => if e.1 = k then eraseId rest k else e :: eraseId rest k

theorem lookupId_eq_none_of_not_mem_keys (m : List (Nat × α)) (k : Nat)
    (h : k ∉ keys m) : lookupId m k = none := by
  induction m with
  | nil => rfl
  | cons e rest ih =>
    simp only [keys_cons, List.mem_cons, not_or] at h
    simp only [lookupId]
    rw [if_neg (fun he => h.1 he.symm)]
    exact ih h.2

/-- Outcome of one full `retain` scan of `tx_loop`: the surviving map, the
segments written to the bearer during the scan (in scan order), and the
number of 10 ms sleeps performed (`tx_loop` sleeps inside the `retain`
closure, once for each queue found empty). -/
structure TxPassOut where
  rxMap : List (Nat × IngressRx)
  written : List Segment
  sleeps : Nat
deriving DecidableEq, Repr

/-- One iteration of `tx_loop`'s outer `loop`: `rx_map.retain(|id, rx| ...)`
with the clock already sampled.  `Ok`/`Empty` keep the entry (`Empty` also
sleeps), `IngressDisconnected` drops it. -/
def tx_pass (clock : Nat) : List (Nat × IngressRx) → TxPassOut
  | [] => { rxMap := [], written := [], sleeps := 0 }
  | (id, rx) :: rest =>
    match tx_step id rx clock with
    | .ok rx' segs =>
      let r := tx_pass clock rest
      { rxMap := (id, rx') :: r.rxMap, written := segs ++ r.written, sleeps := r.sleeps }
    | .ingressDisconnected => tx_pass clock rest
    | .ingressEmpty =>
      let r := tx_pass clock rest
      { rxMap := (id, rx) :: r.rxMap, written := r.written, sleeps := r.sleeps + 1 }

/-- Producers may enqueue payloads between scans: append `p` to the buffer of
the queue registered under `e.1`, if still present (model of a `Sender` the
application still holds; sends to an id no longer in the map go nowhere the
egress loop can see). -/
def enqueue (m : List (Nat × IngressRx)) (e : Nat × Payload) : List (Nat × IngressRx) :=
  m.map (fun q => if q.1 = e.1 then (q.1, { q.2 with buf := q.2.buf ++ [e.2] }) else q)

def enqueueAll (m : List (Nat × IngressRx)) (es : List (Nat × Payload)) :
    List (Nat × IngressRx) :=
  es.foldl enqueue m

/-- Input to one `tx_loop` iteration: the clock sampled at its start and the
payloads enqueued by the application since the previous iteration. -/
structure TxPassInput where
  clock : Nat
  enqueues : List (Nat × Payload)

/-- Several iterations of `tx_loop`: per iteration, deliver the new enqueues,
sample the clock, scan.  Returns the final map and the concatenated write
trace. -/
def tx_run : List TxPassInput → List (Nat × IngressRx) →
    List (Nat × IngressRx) × List Segment
  | [], m => (m, [])
  | i :: is, m =>
    let p := tx_pass i.clock (enqueueAll m i.enqueues)
    let r := tx_run is p.rxMap
    (r.1, p.written ++ r.2)

theorem keys_enqueue (m : List (Nat × IngressRx)) (e : Nat × Payload) :
    keys (enqueue m e) = keys m := by
  unfold keys enqueue
  rw [List.map_map]
  apply List.map_congr_left
  intro q _
  by_cases h : q.1 = e.1 <;> simp [h]

theorem keys_enqueueAll (m : List (Nat × IngressRx)) (es : List (Nat × Payload)) :
    keys (enqueueAll m es) = keys m := by
  induction es generalizing m with
  | nil => rfl
  | cons e rest ih =>
    simp only [enqueueAll, List.foldl_cons] at ih ⊢
    rw [ih, keys_enqueue]

/-- The map only shrinks across a scan: surviving keys were present before. -/
theorem tx_pass_keys_subset (clock : Nat) (m : List (Nat × IngressRx)) :
    ∀ k ∈ keys (tx_pass clock m).rxMap, k ∈ keys m := by
  induction m with
  | nil => intro k hk; exact hk
  | cons e rest ih =>
    obtain ⟨id, rx⟩ := e
    intro k hk
    simp only [tx_pass] at hk
    rcases hstep : tx_step id rx clock with _ | _ | _ <;>
      rw [hstep] at hk <;> simp only [keys_cons, List.mem_cons] at hk ⊢
    · rcases hk with hk | hk
      · exact Or.inl hk
      · exact Or.inr (ih k hk)
    · exact Or.inr (ih k hk)
    · rcases hk with hk | hk
      · exact Or.inl hk
      · exact Or.inr (ih k hk)

/-- Every segment written during a scan carries a protocol id that was in the
map at the start of the scan. -/
theorem tx_pass_written_mem_keys (clock : Nat) (m : List (Nat × IngressRx)) :
    ∀ s ∈ (tx_pass clock m).written, s.protocolId ∈ keys m := by
  induction m with
  | nil => intro s hs; exact absurd hs (List.not_mem_nil s)
  | cons e rest ih =>
    obtain ⟨id, rx⟩ := e
    intro s hs
    simp only [tx_pass] at hs
    cases hstep : tx_step id rx clock with
    | ok rx' segs =>
      rw [hstep] at hs
      simp only [keys_cons, List.mem_cons]
      simp only [List.mem_append] at hs
      rcases hs with hs | hs
      · left
        unfold tx_step at hstep
        cases hr : tryRecv rx with
        | ok p rest2 =>
          rw [hr] at hstep
          cases hstep
          simp only [List.mem_map] at hs
          obtain ⟨c, _, rfl⟩ := hs
          rfl
        | disconnected => rw [hr] at hstep; cases hstep
        | empty => rw [hr] at hstep; cases hstep
      · exact Or.inr (ih s hs)
    | ingressDisconnected =>
      rw [hstep] at hs
      simp only [keys_cons, List.mem_cons]
      exact Or.inr (ih s hs)
    | ingressEmpty =>
      rw [hstep] at hs
      simp only [keys_cons, List.mem_cons]
      exact Or.inr (ih s hs)

/-- Across any number of `tx_loop` iterations, every written segment carries a
protocol id that was registered in the initial map. -/
theorem tx_run_written_mem_keys (is : List TxPassInput) (m : List (Nat × IngressRx)) :
    ∀ s ∈ (tx_run is m).2, s.protocolId ∈ keys m := by
  induction is generalizing m with
  | nil => intro s hs; exact absurd hs (List.not_mem_nil s)
  | cons i rest ih =>
    intro s hs
    simp only [tx_run, List.mem_append] at hs
    rcases hs with hs | hs
    · rw [← keys_enqueueAll m i.enqueues]
      exact tx_pass_written_mem_keys i.clock _ s hs
    · rw [← keys_enqueueAll m i.enqueues]
      exact tx_pass_keys_subset i.clock _ _ (ih _ s hs)

/-- The segments of a pass all carry the clock sampled at the start of the
pass (`let clock = Instant::now();` before the `retain`). -/
theorem tx_pass_written_clock (clock : Nat) (m : List (Nat × IngressRx)) :
    ∀ s ∈ (tx_pass clock m).written, s.clock = clock := by
  induction m with
  | nil => intro s hs; exact absurd hs (List.not_mem_nil s)
  | cons e rest ih =>
    obtain ⟨id, rx⟩ := e
    intro s hs
    simp only [tx_pass] at hs
    cases hstep : tx_step id rx clock with
    | ok rx' segs =>
      rw [hstep] at hs
      simp only [List.mem_append] at hs
      rcases hs with hs | hs
      · unfold tx_step at hstep
        cases hr : tryRecv rx with
        | ok p rest2 =>
          rw [hr] at hstep
          cases hstep
          simp only [List.mem_map] at hs
          obtain ⟨c, _, rfl⟩ := hs
          rfl
        | disconnected => rw [hr] at hstep; cases hstep
        | empty => rw [hr] at hstep; cases hstep
      · exact ih s hs
    | ingressDisconnected => rw [hstep] at hs; exact ih s hs
    | ingressEmpty => rw [hstep] at hs; exact ih s hs

/-- A scan processes the entries independently, in order. -/
theorem tx_pass_append (clock : Nat) (m m' : List (Nat × IngressRx)) :
    tx_pass clock (m ++ m') =
      { rxMap := (tx_pass clock m).rxMap ++ (tx_pass clock m').rxMap,
        written := (tx_pass clock m).written ++ (tx_pass clock m').written,
        sleeps := (tx_pass clock m).sleeps + (tx_pass clock m').sleeps } := by
  induction m with
  | nil => simp [tx_pass]
  | cons e rest ih =>
    obtain ⟨id, rx⟩ := e
    simp only [List.cons_append, tx_pass]
    cases hstep : tx_step id rx clock with
    | ok rx' segs => simp [ih, Nat.add_assoc]
    | ingressDisconnected => simp [ih]
    | ingressEmpty =>
      simp [ih, Nat.add_assoc, Nat.add_comm, Nat.add_left_comm]

/-- `tx_step` when a payload is buffered: pop it and emit its chunk segments. -/
theorem tx_step_of_buf_cons (id clock : Nat) (rx : IngressRx) (P : Payload)
    (rest : List Payload) (h : rx.buf = P :: rest) :
    tx_step id rx clock =
      .ok { rx with buf := rest }
        ((chunksOf MAX_SEGMENT_PAYLOAD_LENGTH P).map
          (fun c => { protocolId := id, clock := clock, chunk := c })) := by
  unfold tx_step tryRecv
  rw [h]

/-- `tx_step` on a drained queue whose producer is gone. -/
theorem tx_step_disconnected_iff (id clock : Nat) (rx : IngressRx) :
    tx_step id rx clock = .ingressDisconnected ↔
      rx.buf = [] ∧ rx.disconnected = true := by
  unfold tx_step tryRecv
  cases hb : rx.buf with
  | nil =>
    cases hd : rx.disconnected <;> simp [hb, hd]
  | cons p rest => simp [hb]

/-- `tx_step` on an empty queue whose producer is still alive. -/
theorem tx_step_empty_iff (id clock : Nat) (rx : IngressRx) :
    tx_step id rx clock = .ingressEmpty ↔
      rx.buf = [] ∧ rx.disconnected = false := by
  unfold tx_step tryRecv
  cases hb : rx.buf with
  | nil =>
    cases hd : rx.disconnected <;> simp [hb, hd]
  | cons p rest => simp [hb]

/-- A disconnected entry is removed by the scan and contributes nothing: the
scan behaves exactly as if the entry were already absent. -/
theorem tx_pass_erase_disconnected (clock : Nat)
    (pre post : List (Nat × IngressRx)) (id : Nat) (q : IngressRx)
    (hq : tx_step id q clock = .ingressDisconnected) :
    tx_pass clock (pre ++ (id, q) :: post) = tx_pass clock (pre ++ post) := by
  rw [tx_pass_append clock pre ((id, q) :: post), tx_pass_append clock pre post]
  simp only [tx_pass, hq]

/-- State of an inbound queue as seen from its producer end (the
`Sender<Payload>` held in `rx_loop`'s `tx_map`): the payloads delivered so
far and whether the application dropped its `Receiver`. -/
structure EgressTx where
  delivered : List Payload
  consumerDropped : Bool
deriving DecidableEq, Repr

/-- `Sender::send`: succeeds and enqueues unless the `Receiver` is gone. -/
def sendPayload (tx : EgressTx) (p : Payload) : Option EgressTx :=
  if tx.consumerDropped then none
  else some { tx with delivered := tx.delivered ++ [p] }

/-- Replace the value stored under `k` (used only when `k` is present, which
matches how `rx_loop` touches the entry found by `get`). -/
def updateId : List (Nat × α) → Nat → α → List (Nat × α)
  | [], _, _ => []
  | e :: rest, k, v =>
    if e.1 = k then (k, v) :: updateId rest k v else e :: updateId rest k v

/-- One iteration of `rx_loop` after a successful `read_segment`: look the id
up in `tx_map`; if found, `send` the payload, removing the entry when the
send fails; if not found, record a warning and drop the segment.  Returns the
new map and the warned-about ids (read failures panic in the source, so the
model feeds only successfully read segments). -/
def rx_step (m : List (Nat × EgressTx)) (seg : Segment) :
    List (Nat × EgressTx) × List Nat :=
  match lookupId m seg.protocolId with
  | some tx =>
    match sendPayload tx seg.chunk with
    | some tx2 => (updateId m seg.protocolId tx2, [])
    | none => (eraseId m seg.protocolId, [])
  | none => (m, [seg.protocolId])

/-- `rx_loop` over a finite prefix of the bearer's segment stream. -/
def rx_run (m : List (Nat × EgressTx)) : List Segment → List (Nat × EgressTx) × List Nat
  | [] => (m, [])
  | s :: rest =>
    let r := rx_step m s
    let r2 := rx_run r.1 rest
    (r2.1, r.2 ++ r2.2)

theorem lookupId_updateId_self (m : List (Nat × α)) (k : Nat) (v : α) :
    lookupId (updateId m k v) k = (lookupId m k).map (fun _ => v) := by
  induction m with
  | nil => rfl
  | cons e rest ih =>
    by_cases h : e.1 = k <;> simp [updateId, lookupId, h, ih]

theorem lookupId_updateId_ne (m : List (Nat × α)) (k j : Nat) (v : α)
    (hjk : j ≠ k) : lookupId (updateId m k v) j = lookupId m j := by
  induction m with
  | nil => rfl
  | cons e rest ih =>
    have hkj : ¬(k = j) := fun hkj => hjk hkj.symm
    by_cases h : e.1 = k
    · simp [updateId, lookupId, h, hkj, ih]
    · by_cases h2 : e.1 = j <;> simp [updateId, lookupId, h, h2, hjk, hkj, ih]

theorem lookupId_eraseId_self (m : List (Nat × α)) (k : Nat) :
    lookupId (eraseId m k) k = none := by
  induction m with
  | nil => rfl
  | cons e rest ih =>
    by_cases h : e.1 = k <;> simp [eraseId, lookupId, h, ih]

theorem lookupId_eraseId_ne (m : List (Nat × α)) (k j : Nat) (hjk : j ≠ k) :
    lookupId (eraseId m k) j = lookupId m j := by
  induction m with
  | nil => rfl
  | cons e rest ih =>
    have hkj : ¬(k = j) := fun hkj => hjk hkj.symm
    by_cases h : e.1 = k
    · have he : ¬(e.1 = j) := fun he => hjk (h ▸ he).symm
      simp [eraseId, lookupId, h, he, hkj, ih]
    · by_cases h2 : e.1 = j <;> simp [eraseId, lookupId, h, h2, hjk, hkj, ih]

theorem keys_updateId (m : List (Nat × α)) (k : Nat) (v : α) :
    keys (updateId m k v) = keys m := by
  induction m with
  | nil => rfl
  | cons e rest ih =>
    by_cases h : e.1 = k <;> simp [updateId, keys_cons, h, ih]

theorem eraseId_sublist (m : List (Nat × α)) (k : Nat) :
    List.Sublist (eraseId m k) m := by
  induction m with
  | nil => exact List.Sublist.refl []
  | cons e rest ih =>
    by_cases h : e.1 = k
    · simp only [eraseId, if_pos h]
      exact ih.cons e
    · simp only [eraseId, if_neg h]
      exact ih.cons₂ e

theorem keys_eraseId_nodup (m : List (Nat × α)) (k : Nat)
    (h : (keys m).Nodup) : (keys (eraseId m k)).Nodup := by
  exact h.sublist ((eraseId_sublist m k).map Prod.fst)

/-- Cumulative effect on one inbound queue entry of delivering a sequence of
payload chunks: `none` once the entry is absent or its consumer is dropped. -/
def deliverSeq : Option EgressTx → List Payload → Option EgressTx
  | none, _ => none
  | some tx, [] => some tx
  | some tx, p :: ps =>
    match sendPayload tx p with
    | some tx2 => deliverSeq (some tx2) ps
    | none => none

theorem deliverSeq_none (ps : List Payload) : deliverSeq none ps = none := by
  cases ps <;> rfl

theorem rx_run_cons (m : List (Nat × EgressTx)) (s : Segment) (rest : List Segment) :
    rx_run m (s :: rest) =
      ((rx_run (rx_step m s).1 rest).1, (rx_step m s).2 ++ (rx_run (rx_step m s).1 rest).2) :=
  rfl

theorem rx_step_eq_of_unknown (m : List (Nat × EgressTx)) (seg : Segment)
    (hl : lookupId m seg.protocolId = none) :
    rx_step m seg = (m, [seg.protocolId]) := by
  simp [rx_step, hl]

theorem rx_step_eq_of_send_ok (m : List (Nat × EgressTx)) (seg : Segment)
    (tx tx2 : EgressTx) (hl : lookupId m seg.protocolId = some tx)
    (hsend : sendPayload tx seg.chunk = some tx2) :
    rx_step m seg = (updateId m seg.protocolId tx2, []) := by
  simp [rx_step, hl, hsend]

theorem rx_step_eq_of_send_fail (m : List (Nat × EgressTx)) (seg : Segment)
    (tx : EgressTx) (hl : lookupId m seg.protocolId = some tx)
    (hsend : sendPayload tx seg.chunk = none) :
    rx_step m seg = (eraseId m seg.protocolId, []) := by
  simp [rx_step, hl, hsend]

theorem rx_step_keys_nodup (m : List (Nat × EgressTx)) (seg : Segment)
    (h : (keys m).Nodup) : (keys (rx_step m seg).1).Nodup := by
  cases hl : lookupId m seg.protocolId with
  | none => rw [rx_step_eq_of_unknown m seg hl]; exact h
  | some tx =>
    cases hsend : sendPayload tx seg.chunk with
    | none =>
      rw [rx_step_eq_of_send_fail m seg tx hl hsend]
      exact keys_eraseId_nodup m seg.protocolId h
    | some tx2 =>
      rw [rx_step_eq_of_send_ok m seg tx tx2 hl hsend, keys_updateId]
      exact h

/-- What `rx_loop` does to one registered entry over a whole segment stream:
the entry's final state is the sequential delivery of exactly the chunks of
the segments carrying its id, in stream order — segments for other ids and
unknown-id segments do not touch it. -/
theorem rx_run_lookup (segs : List Segment) (m : List (Nat × EgressTx))
    (id : Nat) (hnd : (keys m).Nodup) :
    lookupId (rx_run m segs).1 id =
      deliverSeq (lookupId m id)
        ((segs.filter (fun s => s.protocolId = id)).map Segment.chunk) := by
  induction segs generalizing m with
  | nil =>
    cases hl : lookupId m id <;> simp [rx_run, deliverSeq, hl]
  | cons s rest ih =>
    rw [rx_run_cons]
    by_cases hpid : s.protocolId = id
    · subst hpid
      rw [List.filter_cons_of_pos (by simp), List.map_cons]
      cases hl : lookupId m s.protocolId with
      | none =>
        rw [rx_step_eq_of_unknown m s hl]
        rw [ih m hnd, hl, deliverSeq_none, deliverSeq_none]
      | some tx =>
        cases hsend : sendPayload tx s.chunk with
        | some tx2 =>
          rw [rx_step_eq_of_send_ok m s tx tx2 hl hsend]
          have hnd2 : (keys (updateId m s.protocolId tx2)).Nodup := by
            rw [keys_updateId]; exact hnd
          rw [ih _ hnd2, lookupId_updateId_self, hl]
          simp [deliverSeq, hsend]
        | none =>
          rw [rx_step_eq_of_send_fail m s tx hl hsend]
          rw [ih _ (keys_eraseId_nodup m s.protocolId hnd),
            lookupId_eraseId_self]
          simp [deliverSeq, hsend, deliverSeq_none]
    · rw [List.filter_cons_of_neg (by simp [hpid])]
      cases hl : lookupId m s.protocolId with
      | none =>
        rw [rx_step_eq_of_unknown m s hl]
        exact ih m hnd
      | some tx =>
        cases hsend : sendPayload tx s.chunk with
        | some tx2 =>
          rw [rx_step_eq_of_send_ok m s tx tx2 hl hsend]
          have hnd2 : (keys (updateId m s.protocolId tx2)).Nodup := by
            rw [keys_updateId]; exact hnd
          rw [ih _ hnd2,
            lookupId_updateId_ne m s.protocolId id tx2 (fun he => hpid he.symm)]
        | none =>
          rw [rx_step_eq_of_send_fail m s tx hl hsend]
          rw [ih _ (keys_eraseId_nodup m s.protocolId hnd),
            lookupId_eraseId_ne m s.protocolId id (fun he => hpid he.symm)]

/-- The duplex handle `pub struct Channel(pub Sender<Payload>, pub
Receiver<Payload>)`.  Its two queue ends are opaque to the registry logic, so
the model keeps only the protocol id the pair was created for. -/
structure Channel where
  protocolId : Nat
deriving DecidableEq, Repr

/-- `HashMap::insert` on the association-list model: overwrite an existing
key, otherwise append. -/
def hashMapInsert (m : List (Nat × α)) (k : Nat) (v : α) : List (Nat × α) :=
  if k ∈ keys m then updateId m k v else m ++ [(k, v)]

/-- `iterator.collect::<HashMap<_, _>>()`: insert the pairs in order, later
duplicates overwriting earlier ones. -/
def hashMapOfList (l : List (Nat × α)) : List (Nat × α) :=
  l.foldl (fun m e => hashMapInsert m e.1 e.2) []

/-- `pub struct Multiplexer` — the two `JoinHandle`s are not data the claims
touch (the spawned loops are modelled by `tx_pass`/`tx_run` and
`rx_step`/`rx_run`), so the model keeps the registry `io_handles`. -/
structure Multiplexer where
  io_handles : List (Nat × Channel)
deriving DecidableEq, Repr

/-- The `ingress` vector built by `Multiplexer::setup`: a fresh, connected,
empty outbound queue consumer per requested id (collected into `tx_loop`'s
`rx_map`). -/
def setup_ingress (protocols : List Nat) : List (Nat × IngressRx) :=
  protocols.map (fun id => (id, { buf := [], disconnected := false }))

/-- The `egress` vector built by `Multiplexer::setup`: a fresh, connected
inbound queue producer per requested id (collected into `rx_loop`'s
`tx_map`). -/
def setup_egress (protocols : List Nat) : List (Nat × EgressTx) :=
  protocols.map (fun id => (id, { delivered := [], consumerDropped := false }))

/-- `Multiplexer::setup`: build one duplex channel per requested id, collect
the handles into the registry, duplicate the bearer (`Bearer::clone` returns
`Self` and cannot yield an `Err`), spawn both workers (`thread::spawn`
aborts rather than returning an error value) and return `Ok`.  The body has
no fallible expression, so the `Result`'s error side is structurally
unreachable. -/
def Multiplexer.setup {β : Type} (bearer : β) (protocols : List Nat) :
    Except String Multiplexer :=
  let _tx_bearer := bearer
  let _rx_bearer := bearer
  Except.ok
    { io_handles :=
        hashMapOfList (protocols.map (fun id => (id, { protocolId := id }))) }

/-- `Multiplexer::use_channel`: `self.io_handles.remove(&protocol_id)` — the
source then `expect`s the `Option`, panicking with "requested channel not
found in multiplexer" when it is `none`; the model keeps the `Option` so the
failure is observable. -/
def Multiplexer.use_channel (mux : Multiplexer) (protocol_id : Nat) :
    Option (Channel × Multiplexer) :=
  match lookupId mux.io_handles protocol_id with
  | some ch => some (ch, { io_handles := eraseId mux.io_handles protocol_id })
  | none => none

theorem lookupId_isSome_iff (m : List (Nat × α)) (k : Nat) :
    (lookupId m k).isSome ↔ k ∈ keys m := by
  induction m with
  | nil => simp [lookupId, keys_nil]
  | cons e rest ih =>
    by_cases h : e.1 = k <;> simp [lookupId, keys_cons, h, ih]
    exact fun hk => absurd hk.symm h

theorem mem_keys_hashMapInsert (m : List (Nat × α)) (k j : Nat) (v : α) :
    j ∈ keys (hashMapInsert m k v) ↔ j ∈ keys m ∨ j = k := by
  unfold hashMapInsert
  by_cases hmem : k ∈ keys m
  · rw [if_pos hmem, keys_updateId]
    constructor
    · exact Or.inl
    · rintro (h | rfl)
      · exact h
      · exact hmem
  · rw [if_neg hmem, keys_append]
    simp [keys]

theorem mem_keys_hashMapOfList (l : List (Nat × α)) (k : Nat) :
    k ∈ keys (hashMapOfList l) ↔ k ∈ keys l := by
  suffices h : ∀ m : List (Nat × α),
      k ∈ keys (l.foldl (fun m e => hashMapInsert m e.1 e.2) m) ↔
        k ∈ keys m ∨ k ∈ keys l by
    rw [hashMapOfList, h []]
    simp [keys_nil]
  induction l with
  | nil => intro m; simp [keys_nil]
  | cons e rest ih =>
    intro m
    simp only [List.foldl_cons, keys_cons, List.mem_cons]
    rw [ih (hashMapInsert m e.1 e.2), mem_keys_hashMapInsert]
    tauto

/-- A non-empty payload that fits in one chunk is its own single chunk. -/
theorem chunksOf_small (n : Nat) (hn : n ≠ 0) (l : List α) (h1 : l ≠ [])
    (h2 : l.length ≤ n) : chunksOf n l = [l] := by
  match l with
  | [] => exact absurd rfl h1
  | x :: xs =>
    rw [chunksOf_cons n x xs hn, List.take_of_length_le h2,
      List.drop_eq_nil_of_le h2, chunksOf_nil]

theorem lookupId_append_of_left_none (m1 m2 : List (Nat × α)) (k : Nat)
    (h : lookupId m1 k = none) : lookupId (m1 ++ m2) k = lookupId m2 k := by
  induction m1 with
  | nil => rfl
  | cons e rest ih =>
    simp only [lookupId] at h ⊢
    by_cases he : e.1 = k
    · rw [if_pos he] at h; cases h
    · rw [if_neg he] at h ⊢
      exact ih h

/-- Claim C1: every payload `P` popped from a protocol's outbound queue by the
egress step is split into chunks each of length at most 65535 bytes, one
segment is written per chunk in original byte order, and concatenating the
written chunks in emitted order reconstructs exactly `P`, for every length of
`P` (0, 65535, 65536, multiples of 65535 plus a remainder included). -/
theorem claim_C1 (ingress_id clock : Nat) (rx : IngressRx) (P : Payload)
    (rest : List Payload) (h : rx.buf = P :: rest) :
    ∃ segs : List Segment,
      tx_step ingress_id rx clock = .ok { rx with buf := rest } segs ∧
      (∀ s ∈ segs, s.chunk.length ≤ MAX_SEGMENT_PAYLOAD_LENGTH) ∧
      (segs.map Segment.chunk).flatten = P := by
  refine ⟨_, tx_step_of_buf_cons ingress_id clock rx P rest h, ?_, ?_⟩
  · intro s hs
    simp only [List.mem_map] at hs
    obtain ⟨c, hc, rfl⟩ := hs
    exact chunksOf_length_le MAX_SEGMENT_PAYLOAD_LENGTH P c hc
  · rw [List.map_map]
    have hcomp : (Segment.chunk ∘ fun c =>
        ({ protocolId := ingress_id, clock := clock, chunk := c } : Segment)) =
        fun c : Payload => c := rfl
    rw [hcomp, List.map_id']
    exact chunksOf_flatten MAX_SEGMENT_PAYLOAD_LENGTH (by decide) P

theorem claim_C1_witness :
    ({ buf := [[1, 2, 3]], disconnected := false } : IngressRx).buf =
      [1, 2, 3] :: [] ∧
    ∃ segs : List Segment,
      tx_step 0 { buf := [[1, 2, 3]], disconnected := false } 7 =
        .ok { buf := [], disconnected := false } segs ∧
      (∀ s ∈ segs, s.chunk.length ≤ MAX_SEGMENT_PAYLOAD_LENGTH) ∧
      (segs.map Segment.chunk).flatten = [1, 2, 3] :=
  ⟨rfl, claim_C1 0 7 { buf := [[1, 2, 3]], disconnected := false } [1, 2, 3] [] rfl⟩

/-- Claim C2 counterexample: an empty payload enqueued on a registered
protocol's outbound queue is popped by the egress step but written as zero
segments (`slice::chunks` yields nothing on an empty slice), refuting "is
written as one or more segments" for the empty payload. -/
theorem claim_C2_counterexample :
    tx_step 0 { buf := [[]], disconnected := false } 0 =
      .ok { buf := [], disconnected := false } ([] : List Segment) ∧
    ¬ ∃ segs : List Segment, 1 ≤ segs.length ∧
        tx_step 0 { buf := [[]], disconnected := false } 0 =
          .ok { buf := [], disconnected := false } segs := by
  have h : tx_step 0 { buf := [[]], disconnected := false } 0 =
      .ok { buf := [], disconnected := false } ([] : List Segment) := by
    rw [tx_step_of_buf_cons 0 0 _ [] [] rfl, chunksOf_nil, List.map_nil]
  refine ⟨h, ?_⟩
  rintro ⟨segs, hlen, heq⟩
  rw [h] at heq
  cases heq
  simp at hlen

/-- Claim C3: once the egress step observes a protocol's outbound queue as
disconnected (drained and producer dropped), the scan removes that id's entry
from the map and behaves exactly as the scan without that entry (so all other
registered ids continue to be serviced); no segment written during this scan
or by any later iteration — under any further enqueues — carries that id. -/
theorem claim_C3 (clock : Nat) (is : List TxPassInput)
    (pre post : List (Nat × IngressRx)) (id : Nat) (q : IngressRx)
    (hq : q.buf = [] ∧ q.disconnected = true)
    (hid : id ∉ keys (pre ++ post)) :
    lookupId (tx_pass clock (pre ++ (id, q) :: post)).rxMap id = none ∧
    tx_pass clock (pre ++ (id, q) :: post) = tx_pass clock (pre ++ post) ∧
    (∀ s ∈ (tx_pass clock (pre ++ (id, q) :: post)).written, s.protocolId ≠ id) ∧
    (∀ s ∈ (tx_run is (tx_pass clock (pre ++ (id, q) :: post)).rxMap).2,
      s.protocolId ≠ id) := by
  have hdisc : tx_step id q clock = .ingressDisconnected :=
    (tx_step_disconnected_iff id clock q).mpr hq
  have heq := tx_pass_erase_disconnected clock pre post id q hdisc
  refine ⟨?_, heq, ?_, ?_⟩
  · rw [heq]
    exact lookupId_eq_none_of_not_mem_keys _ id
      (fun hmem => hid (tx_pass_keys_subset clock (pre ++ post) id hmem))
  · intro s hs hsid
    rw [heq] at hs
    exact hid (hsid ▸ tx_pass_written_mem_keys clock (pre ++ post) s hs)
  · intro s hs hsid
    rw [heq] at hs
    have hmem := tx_run_written_mem_keys is _ s hs
    rw [hsid] at hmem
    exact hid (tx_pass_keys_subset clock (pre ++ post) id hmem)

theorem claim_C3_witness :
    (({ buf := [], disconnected := true } : IngressRx).buf = [] ∧
      ({ buf := [], disconnected := true } : IngressRx).disconnected = true) ∧
    (2 ∉ keys ([(1, { buf := [[5]], disconnected := false })] ++
      [(3, { buf := [], disconnected := false })] : List (Nat × IngressRx))) ∧
    (lookupId (tx_pass 0 ([(1, { buf := [[5]], disconnected := false })] ++
        (2, { buf := [], disconnected := true }) ::
        [(3, { buf := [], disconnected := false })])).rxMap 2 = none ∧
      tx_pass 0 ([(1, { buf := [[5]], disconnected := false })] ++
          (2, { buf := [], disconnected := true }) ::
          [(3, { buf := [], disconnected := false })]) =
        tx_pass 0 ([(1, { buf := [[5]], disconnected := false })] ++
          [(3, { buf := [], disconnected := false })]) ∧
      (∀ s ∈ (tx_pass 0 ([(1, { buf := [[5]], disconnected := false })] ++
          (2, { buf := [], disconnected := true }) ::
          [(3, { buf := [], disconnected := false })])).written,
        s.protocolId ≠ 2) ∧
      (∀ s ∈ (tx_run [{ clock := 1, enqueues := [(2, [9])] }]
          (tx_pass 0 ([(1, { buf := [[5]], disconnected := false })] ++
            (2, { buf := [], disconnected := true }) ::
            [(3, { buf := [], disconnected := false })])).rxMap).2,
        s.protocolId ≠ 2)) :=
  ⟨⟨rfl, rfl⟩, by decide,
    claim_C3 0 [{ clock := 1, enqueues := [(2, [9])] }]
      [(1, { buf := [[5]], disconnected := false })]
      [(3, { buf := [], disconnected := false })] 2
      { buf := [], disconnected := true } ⟨rfl, rfl⟩ (by decide)⟩

/-- Claim C4: a segment whose protocol id is registered in the ingress loop's
map has its payload pushed onto that protocol's inbound queue; if the push
fails because the consumer end was dropped, the entry is removed permanently
(it stays absent over any later segment stream) while every other id's entry
evolves exactly as it would have without the removal, the loop continuing
over the remaining segments. -/
theorem claim_C4 (m : List (Nat × EgressTx)) (id ts : Nat) (p : Payload)
    (tx : EgressTx) (hnd : (keys m).Nodup) (hl : lookupId m id = some tx) :
    (tx.consumerDropped = false →
      rx_step m { protocolId := id, clock := ts, chunk := p } =
        (updateId m id { tx with delivered := tx.delivered ++ [p] }, [])) ∧
    (tx.consumerDropped = true →
      rx_step m { protocolId := id, clock := ts, chunk := p } = (eraseId m id, []) ∧
      (∀ segs : List Segment, lookupId (rx_run (eraseId m id) segs).1 id = none) ∧
      (∀ id2, id2 ≠ id → ∀ segs : List Segment,
        lookupId (rx_run (eraseId m id) segs).1 id2 =
          lookupId (rx_run m segs).1 id2)) := by
  constructor
  · intro hdrop
    have hsend : sendPayload tx p = some { tx with delivered := tx.delivered ++ [p] } := by
      simp [sendPayload, hdrop]
    exact rx_step_eq_of_send_ok m { protocolId := id, clock := ts, chunk := p }
      tx _ hl hsend
  · intro hdrop
    have hsend : sendPayload tx p = none := by
      simp [sendPayload, hdrop]
    refine ⟨rx_step_eq_of_send_fail m { protocolId := id, clock := ts, chunk := p }
      tx hl hsend, ?_, ?_⟩
    · intro segs
      rw [rx_run_lookup segs (eraseId m id) id (keys_eraseId_nodup m id hnd),
        lookupId_eraseId_self, deliverSeq_none]
    · intro id2 hne segs
      rw [rx_run_lookup segs (eraseId m id) id2 (keys_eraseId_nodup m id hnd),
        rx_run_lookup segs m id2 hnd,
        lookupId_eraseId_ne m id id2 hne]

theorem claim_C4_witness :
    (keys ([(1, { delivered := [], consumerDropped := true }),
        (2, { delivered := [], consumerDropped := false })] :
        List (Nat × EgressTx))).Nodup ∧
    lookupId ([(1, { delivered := [], consumerDropped := true }),
        (2, { delivered := [], consumerDropped := false })] :
        List (Nat × EgressTx)) 1 =
      some { delivered := [], consumerDropped := true } ∧
    ((({ delivered := [], consumerDropped := true } : EgressTx).consumerDropped = false →
      rx_step [(1, { delivered := [], consumerDropped := true }),
          (2, { delivered := [], consumerDropped := false })]
          { protocolId := 1, clock := 0, chunk := [8] } =
        (updateId [(1, { delivered := [], consumerDropped := true }),
            (2, { delivered := [], consumerDropped := false })] 1
          { delivered := [] ++ [[8]], consumerDropped := true }, [])) ∧
    (({ delivered := [], consumerDropped := true } : EgressTx).consumerDropped = true →
      rx_step [(1, { delivered := [], consumerDropped := true }),
          (2, { delivered := [], consumerDropped := false })]
          { protocolId := 1, clock := 0, chunk := [8] } =
        (eraseId [(1, { delivered := [], consumerDropped := true }),
          (2, { delivered := [], consumerDropped := false })] 1, []) ∧
      (∀ segs : List Segment,
        lookupId (rx_run (eraseId [(1, { delivered := [], consumerDropped := true }),
          (2, { delivered := [], consumerDropped := false })] 1) segs).1 1 = none) ∧
      (∀ id2, id2 ≠ 1 → ∀ segs : List Segment,
        lookupId (rx_run (eraseId [(1, { delivered := [], consumerDropped := true }),
          (2, { delivered := [], consumerDropped := false })] 1) segs).1 id2 =
          lookupId (rx_run [(1, { delivered := [], consumerDropped := true }),
            (2, { delivered := [], consumerDropped := false })] segs).1 id2))) :=
  ⟨by decide, by decide,
    claim_C4 [(1, { delivered := [], consumerDropped := true }),
        (2, { delivered := [], consumerDropped := false })] 1 0 [8]
      { delivered := [], consumerDropped := true } (by decide) (by decide)⟩

/-- Claim C5: a segment read with a protocol id absent from the ingress
loop's map is dropped with a warning recording that id, the map is left
unchanged, and the processing of every subsequent segment is exactly what it
would have been anyway. -/
theorem claim_C5 (m : List (Nat × EgressTx)) (seg : Segment)
    (h : lookupId m seg.protocolId = none) :
    rx_step m seg = (m, [seg.protocolId]) ∧
    ∀ rest : List Segment,
      rx_run m (seg :: rest) =
        ((rx_run m rest).1, seg.protocolId :: (rx_run m rest).2) := by
  refine ⟨rx_step_eq_of_unknown m seg h, ?_⟩
  intro rest
  rw [rx_run_cons, rx_step_eq_of_unknown m seg h]
  rfl

theorem claim_C5_witness :
    lookupId ([(7, { delivered := [], consumerDropped := false })] :
        List (Nat × EgressTx))
      ({ protocolId := 9, clock := 0, chunk := [1] } : Segment).protocolId = none ∧
    (rx_step [(7, { delivered := [], consumerDropped := false })]
        { protocolId := 9, clock := 0, chunk := [1] } =
      ([(7, { delivered := [], consumerDropped := false })], [9]) ∧
    ∀ rest : List Segment,
      rx_run [(7, { delivered := [], consumerDropped := false })]
          ({ protocolId := 9, clock := 0, chunk := [1] } :: rest) =
        ((rx_run [(7, { delivered := [], consumerDropped := false })] rest).1,
          9 :: (rx_run [(7, { delivered := [], consumerDropped := false })] rest).2)) :=
  ⟨by decide,
    claim_C5 [(7, { delivered := [], consumerDropped := false })]
      { protocolId := 9, clock := 0, chunk := [1] } (by decide)⟩

theorem tx_pass_lookup_none (clock : Nat) (m : List (Nat × IngressRx)) (id : Nat)
    (h : id ∉ keys m) : lookupId (tx_pass clock m).rxMap id = none :=
  lookupId_eq_none_of_not_mem_keys _ id
    (fun hmem => h (tx_pass_keys_subset clock m id hmem))

theorem tx_pass_filter_written_none (clock : Nat) (m : List (Nat × IngressRx))
    (id : Nat) (h : id ∉ keys m) :
    (tx_pass clock m).written.filter (fun s => s.protocolId = id) = [] := by
  apply List.filter_eq_nil_iff.mpr
  intro s hs
  simp only [decide_eq_true_eq]
  intro hsid
  exact h (hsid ▸ tx_pass_written_mem_keys clock m s hs)

/-- The segments the egress scan emits for one id: the chunk segments of the
first payload queued on that id, nothing if its queue is empty. -/
def headSegments (clock id : Nat) : List Payload → List Segment
  | [] => []
  | p :: _ =>
    (chunksOf MAX_SEGMENT_PAYLOAD_LENGTH p).map
      (fun c => { protocolId := id, clock := clock, chunk := c })

/-- Claim C6: in one egress scan each registered protocol id is visited at
most once — it contributes exactly the chunk segments of the first payload of
its queue (none if the queue is empty), and its queue loses at most that one
payload (the entry being dropped only in the disconnected case). -/
theorem claim_C6 (clock : Nat) (pre post : List (Nat × IngressRx)) (id : Nat)
    (q : IngressRx) (hpre : id ∉ keys pre) (hpost : id ∉ keys post) :
    (tx_pass clock (pre ++ (id, q) :: post)).written.filter
        (fun s => s.protocolId = id) = headSegments clock id q.buf ∧
    lookupId (tx_pass clock (pre ++ (id, q) :: post)).rxMap id =
      (if q.buf = [] ∧ q.disconnected = true then none
       else some { buf := q.buf.tail, disconnected := q.disconnected }) := by
  rw [tx_pass_append clock pre ((id, q) :: post)]
  rcases hbuf : q.buf with _ | ⟨p, bs⟩
  · cases hdisc : q.disconnected with
    | true =>
      have hq : q = { buf := [], disconnected := true } := by
        cases q; simp_all
      subst hq
      have hstep : tx_step id { buf := [], disconnected := true } clock =
          .ingressDisconnected :=
        (tx_step_disconnected_iff id clock _).mpr ⟨rfl, rfl⟩
      simp only [tx_pass, hstep]
      constructor
      · rw [List.filter_append, tx_pass_filter_written_none clock pre id hpre,
          tx_pass_filter_written_none clock post id hpost]
        rfl
      · rw [lookupId_append_of_left_none _ _ id (tx_pass_lookup_none clock pre id hpre),
          tx_pass_lookup_none clock post id hpost]
        rfl
    | false =>
      have hq : q = { buf := [], disconnected := false } := by
        cases q; simp_all
      subst hq
      have hstep : tx_step id { buf := [], disconnected := false } clock =
          .ingressEmpty :=
        (tx_step_empty_iff id clock _).mpr ⟨rfl, rfl⟩
      simp only [tx_pass, hstep]
      constructor
      · rw [List.filter_append, tx_pass_filter_written_none clock pre id hpre,
          tx_pass_filter_written_none clock post id hpost]
        rfl
      · rw [lookupId_append_of_left_none _ _ id (tx_pass_lookup_none clock pre id hpre)]
        simp [lookupId]
  · have hstep := tx_step_of_buf_cons id clock q p bs hbuf
    simp only [tx_pass, hstep]
    constructor
    · rw [List.filter_append, tx_pass_filter_written_none clock pre id hpre,
        List.filter_append, tx_pass_filter_written_none clock post id hpost,
        List.append_nil, List.nil_append]
      rw [List.filter_eq_self.mpr ?hall]
      · rfl
      · intro s hs
        simp only [List.mem_map] at hs
        obtain ⟨c, _, rfl⟩ := hs
        simp
    · rw [lookupId_append_of_left_none _ _ id (tx_pass_lookup_none clock pre id hpre)]
      simp [lookupId]

theorem claim_C6_witness :
    (2 ∉ keys ([(1, { buf := [], disconnected := false })] :
      List (Nat × IngressRx))) ∧
    (2 ∉ keys ([(3, { buf := [[6]], disconnected := false })] :
      List (Nat × IngressRx))) ∧
    ((tx_pass 4 ([(1, { buf := [], disconnected := false })] ++
        (2, { buf := [[7, 8], [9]], disconnected := false }) ::
        [(3, { buf := [[6]], disconnected := false })])).written.filter
          (fun s => s.protocolId = 2) = headSegments 4 2 [[7, 8], [9]] ∧
      lookupId (tx_pass 4 ([(1, { buf := [], disconnected := false })] ++
          (2, { buf := [[7, 8], [9]], disconnected := false }) ::
          [(3, { buf := [[6]], disconnected := false })])).rxMap 2 =
        (if ([[7, 8], [9]] : List Payload) = [] ∧ (false : Bool) = true then none
         else some ({ buf := [[9]], disconnected := false } : IngressRx))) :=
  ⟨by decide, by decide,
    claim_C6 4 [(1, { buf := [], disconnected := false })]
      [(3, { buf := [[6]], disconnected := false })] 2
      { buf := [[7, 8], [9]], disconnected := false } (by decide) (by decide)⟩

/-- Claim C7 counterexample: a scan over two registered ids whose outbound
queues are both empty performs two 10 ms sleeps — `thread::sleep` sits inside
the `retain` closure and fires once per empty queue, not exactly once after
the scan. -/
theorem claim_C7_counterexample :
    (tx_pass 0 [(0, { buf := [], disconnected := false }),
        (1, { buf := [], disconnected := false })]).sleeps = 2 ∧
    ¬ (tx_pass 0 [(0, { buf := [], disconnected := false }),
        (1, { buf := [], disconnected := false })]).sleeps = 1 := by
  constructor
  · rfl
  · intro h
    cases h

/-- Claim C7 amended: in each pass of the egress loop the short fixed sleep
is performed once per registered protocol id whose outbound queue was found
empty (still connected), during the scan as each empty queue is encountered;
a pass in which no queue was empty performs no sleep. -/
theorem claim_C7_amended (clock : Nat) (m : List (Nat × IngressRx)) :
    (tx_pass clock m).sleeps =
      (m.filter (fun e => e.2.buf.isEmpty && !e.2.disconnected)).length := by
  induction m with
  | nil => rfl
  | cons e rest ih =>
    obtain ⟨id, rx⟩ := e
    rcases hbuf : rx.buf with _ | ⟨p, bs⟩
    · cases hdisc : rx.disconnected with
      | true =>
        have hstep : tx_step id rx clock = .ingressDisconnected :=
          (tx_step_disconnected_iff id clock rx).mpr ⟨hbuf, hdisc⟩
        simp only [tx_pass, hstep, List.filter_cons]
        rw [if_neg (by simp [hbuf, hdisc])]
        exact ih
      | false =>
        have hstep : tx_step id rx clock = .ingressEmpty :=
          (tx_step_empty_iff id clock rx).mpr ⟨hbuf, hdisc⟩
        simp only [tx_pass, hstep, List.filter_cons]
        rw [if_pos (by simp [hbuf, hdisc])]
        simp [ih]
    · have hstep := tx_step_of_buf_cons id clock rx p bs hbuf
      simp only [tx_pass, hstep, List.filter_cons]
      rw [if_neg (by simp [hbuf])]
      exact ih

/-- Claim C8: every segment written during one egress scan pass carries the
single clock value sampled at the start of that pass. -/
theorem claim_C8 (clock : Nat) (m : List (Nat × IngressRx)) :
    ∀ s ∈ (tx_pass clock m).written, s.clock = clock :=
  tx_pass_written_clock clock m

theorem claim_C8_witness :
    ({ protocolId := 0, clock := 5, chunk := [1] } : Segment) ∈
      (tx_pass 5 [(0, { buf := [[1]], disconnected := false })]).written ∧
    ({ protocolId := 0, clock := 5, chunk := [1] } : Segment).clock = 5 := by
  have hchunk : chunksOf MAX_SEGMENT_PAYLOAD_LENGTH ([1] : Payload) = [[1]] :=
    chunksOf_small MAX_SEGMENT_PAYLOAD_LENGTH (by decide) [1] (by decide) (by decide)
  have hmem : ({ protocolId := 0, clock := 5, chunk := [1] } : Segment) ∈
      (tx_pass 5 [(0, { buf := [[1]], disconnected := false })]).written := by
    rw [show (tx_pass 5 [(0, { buf := [[1]], disconnected := false })]).written =
      ((chunksOf MAX_SEGMENT_PAYLOAD_LENGTH ([1] : Payload)).map
        (fun c => { protocolId := 0, clock := 5, chunk := c })) ++ [] from rfl]
    rw [hchunk]
    simp
  exact ⟨hmem, claim_C8 5 [(0, { buf := [[1]], disconnected := false })] _ hmem⟩

theorem keys_map_pair (f : Nat → α) (l : List Nat) :
    keys (l.map (fun i => (i, f i))) = l := by
  induction l with
  | nil => rfl
  | cons x xs ih => rw [List.map_cons, keys_cons, ih]

/-- Claim C9: claiming a protocol id removes and returns its duplex handle
from the registry exactly once — a second claim of the same id, or a claim of
an id never passed to setup, fails with the not-found lookup failure (the
source's `expect` on the `remove`'s `Option`). -/
theorem claim_C9 {β : Type} (bearer : β) (protocols : List Nat)
    (mux : Multiplexer)
    (hsetup : Multiplexer.setup bearer protocols = Except.ok mux) (id : Nat) :
    (id ∈ protocols →
      ∃ ch mux2, mux.use_channel id = some (ch, mux2) ∧
        mux2.use_channel id = none) ∧
    (id ∉ protocols → mux.use_channel id = none) := by
  have hmux : mux.io_handles =
      hashMapOfList (protocols.map (fun i => (i, { protocolId := i }))) := by
    simp only [Multiplexer.setup, Except.ok.injEq] at hsetup
    rw [← hsetup]
  constructor
  · intro hmem
    have hk : id ∈ keys mux.io_handles := by
      rw [hmux]
      apply (mem_keys_hashMapOfList _ id).mpr
      rw [keys_map_pair]
      exact hmem
    have hsome : (lookupId mux.io_handles id).isSome :=
      (lookupId_isSome_iff mux.io_handles id).mpr hk
    cases hlk : lookupId mux.io_handles id with
    | none => rw [hlk] at hsome; cases hsome
    | some ch =>
      refine ⟨ch, { io_handles := eraseId mux.io_handles id }, ?_, ?_⟩
      · simp [Multiplexer.use_channel, hlk]
      · simp [Multiplexer.use_channel, lookupId_eraseId_self]
  · intro hmem
    have hk : id ∉ keys mux.io_handles := by
      rw [hmux]
      intro hin
      apply hmem
      have := (mem_keys_hashMapOfList _ id).mp hin
      rwa [keys_map_pair] at this
    simp [Multiplexer.use_channel, lookupId_eq_none_of_not_mem_keys _ id hk]

theorem claim_C9_witness :
    Multiplexer.setup () [1, 2] =
      Except.ok ({ io_handles := [(1, { protocolId := 1 }),
        (2, { protocolId := 2 })] } : Multiplexer) ∧
    ((1 ∈ [1, 2] →
      ∃ ch mux2,
        ({ io_handles := [(1, { protocolId := 1 }), (2, { protocolId := 2 })] } :
          Multiplexer).use_channel 1 = some (ch, mux2) ∧
        mux2.use_channel 1 = none) ∧
    (1 ∉ [1, 2] →
      ({ io_handles := [(1, { protocolId := 1 }), (2, { protocolId := 2 })] } :
        Multiplexer).use_channel 1 = none)) :=
  ⟨rfl, claim_C9 () [1, 2]
    { io_handles := [(1, { protocolId := 1 }), (2, { protocolId := 2 })] } rfl 1⟩

/-- Claim C10: for every bearer instance and every list of protocol ids,
`Multiplexer::setup` returns `Ok` with the constructed façade — its `Result`
return type's error side is never produced (`Bearer::clone` returns `Self`
and `thread::spawn` has no error value to propagate). -/
theorem claim_C10 {β : Type} (bearer : β) (protocols : List Nat) :
    ∃ mux : Multiplexer, Multiplexer.setup bearer protocols = Except.ok mux :=
  ⟨_, rfl⟩

theorem tx_run_cons_input (c : Nat) (is : List TxPassInput)
    (m : List (Nat × IngressRx)) :
    tx_run ({ clock := c, enqueues := [] } :: is) m =
      ((tx_run is (tx_pass c m).rxMap).1,
        (tx_pass c m).written ++ (tx_run is (tx_pass c m).rxMap).2) :=
  rfl

theorem tx_run_filter_none (is : List TxPassInput) (m : List (Nat × IngressRx))
    (id : Nat) (h : id ∉ keys m) :
    (tx_run is m).2.filter (fun s => s.protocolId = id) = [] := by
  apply List.filter_eq_nil_iff.mpr
  intro s hs
  simp only [decide_eq_true_eq]
  intro hsid
  exact h (hsid ▸ tx_run_written_mem_keys is m s hs)

theorem headSegments_map_chunk_cons (clock id : Nat) (p : Payload)
    (bs : List Payload) :
    (headSegments clock id (p :: bs)).map Segment.chunk =
      chunksOf MAX_SEGMENT_PAYLOAD_LENGTH p := by
  show ((chunksOf MAX_SEGMENT_PAYLOAD_LENGTH p).map
      (fun c => ({ protocolId := id, clock := clock, chunk := c } : Segment))).map
      Segment.chunk = chunksOf MAX_SEGMENT_PAYLOAD_LENGTH p
  rw [List.map_map]
  have hcomp : (Segment.chunk ∘ fun c =>
      ({ protocolId := id, clock := clock, chunk := c } : Segment)) =
      fun c : Payload => c := rfl
  rw [hcomp, List.map_id']

/-- One scan over a map containing `id` at an arbitrary position: the
segments filtered to `id` are the chunk segments of its head payload, and the
surviving map keeps the (tail-)entry except in the drained-and-disconnected
case. -/
theorem tx_pass_mid (clock : Nat) (pre post : List (Nat × IngressRx)) (id : Nat)
    (q : IngressRx) (hpre : id ∉ keys pre) (hpost : id ∉ keys post) :
    (tx_pass clock (pre ++ (id, q) :: post)).written.filter
        (fun s => s.protocolId = id) = headSegments clock id q.buf ∧
    (tx_pass clock (pre ++ (id, q) :: post)).rxMap =
      (tx_pass clock pre).rxMap ++
        ((if q.buf = [] ∧ q.disconnected = true then []
          else [(id, { buf := q.buf.tail, disconnected := q.disconnected })]) ++
          (tx_pass clock post).rxMap) := by
  rw [tx_pass_append clock pre ((id, q) :: post)]
  rcases hbuf : q.buf with _ | ⟨p, bs⟩
  · cases hdisc : q.disconnected with
    | true =>
      have hq : q = { buf := [], disconnected := true } := by
        cases q; simp_all
      subst hq
      have hstep : tx_step id { buf := [], disconnected := true } clock =
          .ingressDisconnected :=
        (tx_step_disconnected_iff id clock _).mpr ⟨rfl, rfl⟩
      simp only [tx_pass, hstep]
      constructor
      · rw [List.filter_append, tx_pass_filter_written_none clock pre id hpre,
          tx_pass_filter_written_none clock post id hpost]
        rfl
      · simp
    | false =>
      have hq : q = { buf := [], disconnected := false } := by
        cases q; simp_all
      subst hq
      have hstep : tx_step id { buf := [], disconnected := false } clock =
          .ingressEmpty :=
        (tx_step_empty_iff id clock _).mpr ⟨rfl, rfl⟩
      simp only [tx_pass, hstep]
      constructor
      · rw [List.filter_append, tx_pass_filter_written_none clock pre id hpre,
          tx_pass_filter_written_none clock post id hpost]
        rfl
      · simp
  · have hstep := tx_step_of_buf_cons id clock q p bs hbuf
    simp only [tx_pass, hstep]
    constructor
    · rw [List.filter_append, tx_pass_filter_written_none clock pre id hpre,
        List.filter_append, tx_pass_filter_written_none clock post id hpost,
        List.append_nil, List.nil_append]
      rw [List.filter_eq_self.mpr ?hall]
      · rfl
      · intro s hs
        simp only [List.mem_map] at hs
        obtain ⟨c, _, rfl⟩ := hs
        simp
    · simp

/-- Over a run of egress passes with at least as many passes as payloads
queued on `id`, the write trace filtered to `id` consists exactly of the
chunks of the queued payloads, in enqueue order. -/
theorem tx_run_filter_chunks (clocks : List Nat)
    (pre post : List (Nat × IngressRx)) (id : Nat) (q : IngressRx)
    (hpre : id ∉ keys pre) (hpost : id ∉ keys post)
    (hlen : q.buf.length ≤ clocks.length) :
    ((tx_run (clocks.map (fun c => { clock := c, enqueues := [] }))
        (pre ++ (id, q) :: post)).2.filter
        (fun s => s.protocolId = id)).map Segment.chunk =
      (q.buf.map (chunksOf MAX_SEGMENT_PAYLOAD_LENGTH)).flatten := by
  induction clocks generalizing pre post q with
  | nil =>
    have hq : q.buf = [] := List.length_eq_zero.mp (Nat.le_zero.mp hlen)
    rw [hq]
    rfl
  | cons c cs ih =>
    rw [List.map_cons, tx_run_cons_input]
    obtain ⟨hfil, hmap⟩ := tx_pass_mid c pre post id q hpre hpost
    rw [List.filter_append, List.map_append, hfil, hmap]
    have hpre2 : id ∉ keys (tx_pass c pre).rxMap :=
      fun hmem => hpre (tx_pass_keys_subset c pre id hmem)
    have hpost2 : id ∉ keys (tx_pass c post).rxMap :=
      fun hmem => hpost (tx_pass_keys_subset c post id hmem)
    rcases hbuf : q.buf with _ | ⟨p, bs⟩
    · cases hdisc : q.disconnected with
      | true =>
        rw [if_pos ⟨rfl, rfl⟩, List.nil_append]
        rw [tx_run_filter_none _ _ id (by
          rw [keys_append]
          simp only [List.mem_append]
          rintro (hmem | hmem)
          · exact hpre2 hmem
          · exact hpost2 hmem)]
        rfl
      | false =>
        rw [if_neg (by simp), List.singleton_append]
        simp only [List.tail_nil]
        have := ih (tx_pass c pre).rxMap (tx_pass c post).rxMap
          { buf := [], disconnected := false } hpre2 hpost2 (by simp)
        rw [this]
        rfl
    · rw [hbuf] at hlen
      rw [if_neg (by simp), List.singleton_append]
      rw [headSegments_map_chunk_cons]
      simp only [List.tail_cons]
      have := ih (tx_pass c pre).rxMap (tx_pass c post).rxMap
        { buf := bs, disconnected := q.disconnected } hpre2 hpost2
        (by show bs.length ≤ cs.length
            simp only [List.length_cons] at hlen
            omega)
      rw [this]
      rw [List.map_cons, List.flatten_cons]

/-- Claim C2 amended: for every registered protocol id, every payload
enqueued on that protocol's outbound queue is eventually written as segments
all carrying that id — a non-empty payload as one or more segments whose
chunks concatenate back to exactly that payload, an empty payload as zero
segments — and over a run with enough passes the id's write trace is exactly
the concatenation of its enqueued payloads' chunk sequences in enqueue
order, so no segment carrying that id contains bytes belonging to a
different enqueue. -/
theorem claim_C2_amended (clocks : List Nat) (pre post : List (Nat × IngressRx))
    (id : Nat) (q : IngressRx) (hpre : id ∉ keys pre) (hpost : id ∉ keys post)
    (hlen : q.buf.length ≤ clocks.length) :
    ((tx_run (clocks.map (fun c => { clock := c, enqueues := [] }))
        (pre ++ (id, q) :: post)).2.filter
        (fun s => s.protocolId = id)).map Segment.chunk =
      (q.buf.map (chunksOf MAX_SEGMENT_PAYLOAD_LENGTH)).flatten ∧
    ∀ P ∈ q.buf,
      (chunksOf MAX_SEGMENT_PAYLOAD_LENGTH P).flatten = P ∧
      (P ≠ [] → chunksOf MAX_SEGMENT_PAYLOAD_LENGTH P ≠ []) ∧
      (P = [] → chunksOf MAX_SEGMENT_PAYLOAD_LENGTH P = []) := by
  refine ⟨tx_run_filter_chunks clocks pre post id q hpre hpost hlen, ?_⟩
  intro P _
  refine ⟨chunksOf_flatten MAX_SEGMENT_PAYLOAD_LENGTH (by decide) P,
    fun hP => chunksOf_ne_nil MAX_SEGMENT_PAYLOAD_LENGTH (by decide) P hP, ?_⟩
  intro hP
  rw [hP]
  exact chunksOf_nil MAX_SEGMENT_PAYLOAD_LENGTH

theorem claim_C2_amended_witness :
    (0 ∉ keys ([(5, { buf := [], disconnected := false })] :
      List (Nat × IngressRx))) ∧
    (0 ∉ keys ([] : List (Nat × IngressRx))) ∧
    ([[1, 2], []] : List Payload).length ≤ ([10, 11] : List Nat).length ∧
    ((((tx_run ([10, 11].map (fun c => ({ clock := c, enqueues := [] } : TxPassInput)))
        ([(5, { buf := [], disconnected := false })] ++
          (0, { buf := [[1, 2], []], disconnected := false }) :: [])).2.filter
        (fun s => s.protocolId = 0)).map Segment.chunk =
      (([[1, 2], []] : List Payload).map (chunksOf MAX_SEGMENT_PAYLOAD_LENGTH)).flatten) ∧
    ∀ P ∈ ([[1, 2], []] : List Payload),
      (chunksOf MAX_SEGMENT_PAYLOAD_LENGTH P).flatten = P ∧
      (P ≠ [] → chunksOf MAX_SEGMENT_PAYLOAD_LENGTH P ≠ []) ∧
      (P = [] → chunksOf MAX_SEGMENT_PAYLOAD_LENGTH P = [])) :=
  ⟨by decide, by decide, by decide,
    claim_C2_amended [10, 11] [(5, { buf := [], disconnected := false })] [] 0
      { buf := [[1, 2], []], disconnected := false } (by decide) (by decide)
      (by decide)⟩
